import Mathlib

/-!
Verification of the wiki-cite edit guardrail and push subsystems.

Shallow embedding of `wiki_cite/guardrails.py`, `wiki_cite/wikipedia_push.py`,
`wiki_cite/models.py`, `wiki_cite/config.py` and `wiki_cite/agent.py`
(the parts reachable from the frozen claims), plus a faithful embedding of the
CPython `difflib.SequenceMatcher` ratio computation that
`EditGuardrails.calculate_similarity` delegates to.

Modelling conventions:
  - Python `str` text values are `List Char`; `datetime` timestamps are
    integers counting seconds, so `timedelta(hours=1)` is `3600`;
  - Python `float` results (`SequenceMatcher.ratio`, the removal percentage
    product) are modelled as exact rationals and exact integer division; the
    binary-float rounding of CPython can differ from the exact value only on
    boundary ratios, which no claim below depends on;
  - Python `int` configuration fields are `Int`; raised exceptions are the
    `Except` error branch; functions that return `(bool, str)` pairs whose
    string carries a formatted number are modelled with a structured result
    type carrying the same number.
-/

namespace WikiCite

/-! ## Generic text utilities (Python `str.find`, `in`, `str.replace(old, new, 1)`) -/

/-- First index at which `pat` occurs in `hay` (Python `hay.find(pat)` when
the result is non-negative); `none` when `pat` does not occur.  The empty
pattern occurs at index 0, as in Python. -/
def findSub : List Char → List Char → Option Nat
  | hay, pat =>
    if pat.isPrefixOf hay then some 0
    else
      match hay with
      | [] => none
      | _ :: t => (findSub t pat).map (· + 1)

/-- Python `pat in hay`. -/
def occursIn (hay pat : List Char) : Bool :=
  (findSub hay pat).isSome

/-- Python `hay.find(pat)`: first index, or `-1` when absent. -/
def strFind (hay pat : List Char) : Int :=
  match findSub hay pat with
  | some i => (i : Int)
  | none => -1

/-- Python `hay.replace(pat, rep, 1)`: replace the first occurrence of `pat`
(if any) by `rep`. -/
def replaceFirst (hay pat rep : List Char) : List Char :=
  match findSub hay pat with
  | some i => hay.take i ++ rep ++ hay.drop (i + pat.length)
  | none => hay

/-- Scanning formulation of first-occurrence replacement, used by the
spec-side description of `applyEdits` ("locates the original text literally
within the working copy, replacing only the first occurrence"). -/
def replaceScan : List Char → List Char → List Char → List Char
  | hay, pat, rep =>
    if pat.isPrefixOf hay then rep ++ hay.drop pat.length
    else
      match hay with
      | [] => []
      | c :: t => c :: replaceScan t pat rep

/-- Scanning formulation of the occurrence test. -/
def occursScan : List Char → List Char → Bool
  | hay, pat =>
    pat.isPrefixOf hay ||
      match hay with
      | [] => false
      | _ :: t => occursScan t pat

/-- Stable insertion of `x` into a list already sorted by descending `key`:
`x` is placed before the first element with a strictly smaller key, hence
after all earlier elements whose key ties with it. -/
def insertDesc (key : α → Int) (x : α) : List α → List α
  | [] => [x]
  | y :: ys => if key y < key x then x :: y :: ys else y :: insertDesc key x ys

/-- Stable sort by descending `key`: the semantics of Python
`sorted(l, key=key, reverse=True)` (Timsort is stable, and `reverse=True`
reverses each comparison while preserving the order of ties). -/
def sortDescBy (key : α → Int) (l : List α) : List α :=
  l.foldl (fun acc x => insertDesc key x acc) []

/-! ## Data model (`wiki_cite/models.py`) -/

/-- `models.EditType`. -/
inductive EditType where
  | citationAdded
  | grammarFix
  | styleFix
  | wikilinkAdded
  | policyFix
  | formatFix
  deriving DecidableEq, Repr

/-- The `.value` string of each `EditType` member. -/
def EditType.value : EditType → String
  | .citationAdded => "citation"
  | .grammarFix => "grammar"
  | .styleFix => "style"
  | .wikilinkAdded => "wikilink"
  | .policyFix => "policy"
  | .formatFix => "formatting"

/-- `models.ProposedEdit`.  The `source : Source | None` field is omitted:
no operation modelled here reads it.  `approved` is `None`/`True`/`False`. -/
structure ProposedEdit where
  edit_type : EditType
  original_text : List Char
  proposed_text : List Char
  rationale : List Char := []
  policy_reference : Option String := none
  confidence : String := "medium"
  approved : Option Bool := none
  reviewer_notes : Option String := none
  deriving DecidableEq, Repr

/-- `models.Article` (`fetched_at` omitted: never read by the modelled code). -/
structure Article where
  title : String
  url : String
  wikitext : List Char
  revision_id : String
  deriving DecidableEq, Repr

/-- `models.EditProposal` (timestamps omitted: never read by the modelled
code). -/
structure EditProposal where
  id : String
  article : Article
  edits : List ProposedEdit
  status : String := "pending"
  reviewer_notes : Option String := none
  deriving DecidableEq, Repr

/-- `EditProposal.get_approved_edits`. -/
def get_approved_edits (p : EditProposal) : List ProposedEdit :=
  p.edits.filter (fun e => e.approved = some true)

/-- Number of approved edits of one type.  The source tallies a dict keyed by
`edit.edit_type.value`; since `.value` is injective this equals counting by
the enum member itself. -/
def countType (p : EditProposal) (t : EditType) : Nat :=
  ((get_approved_edits p).filter (fun e => e.edit_type = t)).length

/-- Python `'s' if n > 1 else ''`. -/
def pluralS (n : Nat) : String :=
  if 1 < n then "s" else ""

/-- `EditProposal.get_edit_summary`.  Note the disclosure suffix is a string
literal in the source; the `wikipedia.edit_summary_suffix` configuration
field is not consulted. -/
def get_edit_summary (p : EditProposal) : String :=
  if get_approved_edits p = [] then ""
  else
    let nCit := countType p .citationAdded
    let nWik := countType p .wikilinkAdded
    let nGra := countType p .grammarFix
    let nSty := countType p .styleFix
    let nPol := countType p .policyFix
    let nFor := countType p .formatFix
    let parts : List String :=
      (if 0 < nCit then ["added " ++ toString nCit ++ " citation" ++ pluralS nCit] else []) ++
      (if 0 < nWik then [toString nWik ++ " wikilink" ++ pluralS nWik] else []) ++
      (if 0 < nGra then ["fixed grammar"] else []) ++
      (if 0 < nSty then ["style fixes"] else []) ++
      (if 0 < nPol then ["policy compliance"] else []) ++
      (if 0 < nFor then ["formatting"] else [])
    "Copyedit: " ++ String.intercalate ", " parts ++
      " (AI-assisted citation/cleanup, human-reviewed)"

/-! ## Configuration (`wiki_cite/config.py`) -/

/-- `config.GuardrailsConfig` (thresholds only; `skip_blp_articles` is not
read by the modelled code). -/
structure GuardrailsConfig where
  max_new_words : Int := 50
  max_content_removal_pct : Int := 20
  min_similarity_ratio : Rat := 0.85
  deriving DecidableEq, Repr

/-- `config.WikipediaConfig`. -/
structure WikipediaConfig where
  edit_summary_suffix : String := "(AI-assisted citation/cleanup, human-reviewed)"
  rate_limit_edits_per_hour : Int := 10
  user_agent : String :=
    "WikiCiteBot/1.0 (https://github.com/yourorg/wiki-cite; citation-cleanup-assistant)"
  deriving DecidableEq, Repr

/-- Default guardrails configuration. -/
def defaultGuardrails : GuardrailsConfig := {}

/-- Default wikipedia configuration. -/
def defaultWikipedia : WikipediaConfig := {}

/-! ## Rate limiter and push service (`wiki_cite/wikipedia_push.py`)

Time is integer seconds; `datetime.now()` is the explicit parameter `now` and
`timedelta(hours=1)` is `3600`.  The mwclient site is modelled by a `WikiEnv`
record giving the outcome of each external call the push path performs. -/

/-- The pruning that `RateLimiter.can_edit` performs in place:
`[t for t in self.edit_times if t > cutoff]` with `cutoff = now - 1 hour`. -/
def pruneTimes (now : Int) (times : List Int) : List Int :=
  times.filter (fun t => now - 3600 < t)

/-- `RateLimiter.can_edit`: prune, then compare against the hourly cap.  The
source mutates `self.edit_times`; the result pairs the boolean with the
pruned list that the mutation leaves behind. -/
def can_edit (maxEditsPerHour : Int) (now : Int) (times : List Int) :
    Bool × List Int :=
  let remaining := pruneTimes now times
  (decide ((remaining.length : Int) < maxEditsPerHour), remaining)

/-- `RateLimiter.record_edit`: append the current timestamp. -/
def record_edit (now : Int) (times : List Int) : List Int :=
  times ++ [now]

/-- Outcomes of the external wiki calls made during one `push_edits` run:
fetching the live revision (`site.pages[title]` + `page.revision` inside
`check_for_conflicts`), accessing the page in `push_edits`, and `page.save`.
An `Except.error` branch is a raised exception, carrying `str(e)`. -/
structure WikiEnv where
  fetchRevision : Except String String
  pageAccess : Except String Unit
  saveResult : Except String Unit
  deriving Repr

/-- `WikipediaPushService.check_for_conflicts`: true when the live revision
string differs from the base revision, true when the lookup raises. -/
def check_for_conflicts (env : WikiEnv) (base_revision : String) : Bool :=
  match env.fetchRevision with
  | .ok current => decide (current ≠ base_revision)
  | .error _ => true

/-- `WikipediaPushService.push_edits`.  Returns the `(success, message)` pair
together with the rate-limiter timestamp list left behind (pruned by the
`can_edit` call, and extended by `record_edit` only after a successful
save). -/
def push_edits (maxEditsPerHour : Int) (now : Int) (env : WikiEnv)
    (times : List Int) (proposal : EditProposal) (_modified_text : List Char) :
    (Bool × String) × List Int :=
  let checked := can_edit maxEditsPerHour now times
  if ¬checked.1 then
    ((false, "Rate limit exceeded. Please wait before making more edits."), checked.2)
  else if check_for_conflicts env proposal.article.revision_id then
    ((false, "Edit conflict: article has been modified since analysis. Please re-analyze."),
      checked.2)
  else
    let edit_summary := get_edit_summary proposal
    if edit_summary = "" then
      ((false, "No approved edits to push"), checked.2)
    else
      match env.pageAccess with
      | .error e => ((false, "Failed to access page: " ++ e), checked.2)
      | .ok _ =>
        match env.saveResult with
        | .ok _ =>
          ((true, "Successfully pushed edits. Edit summary: " ++ edit_summary),
            record_edit now checked.2)
        | .error e => ((false, "Failed to push edits: " ++ e), checked.2)

/-! ## Word counting (`EditGuardrails.count_words`)

The four `re.sub` passes of the source are hand-compiled scanners.  Each
models the exact backtracking behaviour of its pattern: `re.sub` scans left
to right, removes non-overlapping matches, and advances one character past a
position where no match starts. -/

/-- Match attempt for `\x7b\x7b[^\x7d]+\x7d\x7d` just after a leading pair of
opening braces: the greedy non-brace run must be non-empty and be followed by
two closing braces.  Returns the number of characters consumed after the
opening pair. -/
def tmplMatch (rest : List Char) : Option Nat :=
  let run := rest.takeWhile (fun c => decide (c ≠ '}'))
  if run.isEmpty then none
  else
    match rest.drop run.length with
    | '}' :: '}' :: _ => some (run.length + 2)
    | _ => none

/-- First `re.sub` pass of `count_words`: remove template invocations. -/
def removeTemplates : List Char → List Char
  | [] => []
  | '{' :: '{' :: rest =>
    match tmplMatch rest with
    | some used => removeTemplates (rest.drop used)
    | none => '{' :: removeTemplates ('{' :: rest)
  | c :: rest => c :: removeTemplates rest
  termination_by l => l.length
  decreasing_by
  all_goals simp only [List.length_drop, List.length_cons]
  all_goals omega

/-- Match attempt for `<ref[^>]*>.*?</ref>` (DOTALL) just after a leading
`<ref`: greedy non-`>` attribute run, a closing `>`, then the nearest
following `</ref>`.  Returns the number of characters consumed after the
leading `<ref`. -/
def refPairMatch (rest : List Char) : Option Nat :=
  let attrs := rest.takeWhile (fun c => decide (c ≠ '>'))
  match rest.drop attrs.length with
  | '>' :: tail =>
    match findSub tail ['<', '/', 'r', 'e', 'f', '>'] with
    | some i => some (attrs.length + 1 + (i + 6))
    | none => none
  | _ => none

/-- Second `re.sub` pass of `count_words`: remove paired reference tags. -/
def removeRefPairs : List Char → List Char
  | [] => []
  | '<' :: 'r' :: 'e' :: 'f' :: rest =>
    match refPairMatch rest with
    | some used => removeRefPairs (rest.drop used)
    | none => '<' :: removeRefPairs ('r' :: 'e' :: 'f' :: rest)
  | c :: rest => c :: removeRefPairs rest
  termination_by l => l.length
  decreasing_by
  all_goals simp only [List.length_drop, List.length_cons]
  all_goals omega

/-- Match attempt for `<ref[^>]*/>` just after a leading `<ref`: the greedy
non-`>` run must end in `/` and be followed by `>` (the one backtracking step
the pattern admits).  Returns the number of characters consumed after the
leading `<ref`. -/
def refSelfMatch (rest : List Char) : Option Nat :=
  let attrs := rest.takeWhile (fun c => decide (c ≠ '>'))
  match rest.drop attrs.length with
  | '>' :: _ => if attrs.getLast? = some '/' then some (attrs.length + 1) else none
  | _ => none

/-- Third `re.sub` pass of `count_words`: remove self-closing reference tags. -/
def removeSelfRefs : List Char → List Char
  | [] => []
  | '<' :: 'r' :: 'e' :: 'f' :: rest =>
    match refSelfMatch rest with
    | some used => removeSelfRefs (rest.drop used)
    | none => '<' :: removeSelfRefs ('r' :: 'e' :: 'f' :: rest)
  | c :: rest => c :: removeSelfRefs rest
  termination_by l => l.length
  decreasing_by
  all_goals simp only [List.length_drop, List.length_cons]
  all_goals omega

/-- Match attempt for `\[\[(?:[^|\]]+\|)?([^\]]+)\]\]` just after a leading
pair of opening square brackets: first try with the optional
target-plus-pipe group (greedy), then without it.  Returns the captured
label together with the number of characters consumed after the leading
bracket pair. -/
def linkMatch (rest : List Char) : Option (List Char × Nat) :=
  let r1 := rest.takeWhile (fun c => decide (c ≠ '|') && decide (c ≠ ']'))
  let withOpt : Option (List Char × Nat) :=
    match rest.drop r1.length with
    | '|' :: s =>
      if r1.isEmpty then none
      else
        let r2 := s.takeWhile (fun c => decide (c ≠ ']'))
        if r2.isEmpty then none
        else
          match s.drop r2.length with
          | ']' :: ']' :: _ => some (r2, r1.length + 1 + r2.length + 2)
          | _ => none
    | _ => none
  withOpt.orElse fun _ =>
    let r2 := rest.takeWhile (fun c => decide (c ≠ ']'))
    if r2.isEmpty then none
    else
      match rest.drop r2.length with
      | ']' :: ']' :: _ => some (r2, r2.length + 2)
      | _ => none

/-- Fourth `re.sub` pass of `count_words`: replace wikilinks by their visible
label (the capture group). -/
def replaceWikilinks : List Char → List Char
  | [] => []
  | '[' :: '[' :: rest =>
    match linkMatch rest with
    | some (cap, used) => cap ++ replaceWikilinks (rest.drop used)
    | none => '[' :: replaceWikilinks ('[' :: rest)
  | c :: rest => c :: replaceWikilinks rest
  termination_by l => l.length
  decreasing_by
  all_goals simp only [List.length_drop, List.length_cons]
  all_goals omega

/-- Number of maximal whitespace-free runs: the length of Python
`cleaned.split()`. -/
def wordRuns : Bool → List Char → Nat
  | _, [] => 0
  | inWord, c :: t =>
    if c.isWhitespace then wordRuns false t
    else (if inWord then 0 else 1) + wordRuns true t

/-- `EditGuardrails.count_words`. -/
def count_words (text : List Char) : Nat :=
  wordRuns false (replaceWikilinks (removeSelfRefs (removeRefPairs (removeTemplates text))))

/-! ## Citation/template detection (`EditGuardrails.is_citation_or_template`) -/

/-- Existence of a match of `<ref[^>]*>` (IGNORECASE) in an already
lower-cased text: a `<ref` occurrence with some later `>`. -/
def hasRefOpenLower : List Char → Bool
  | '<' :: 'r' :: 'e' :: 'f' :: rest =>
    rest.contains '>' || hasRefOpenLower ('r' :: 'e' :: 'f' :: rest)
  | _ :: t => hasRefOpenLower t
  | [] => false
  termination_by l => l.length
  decreasing_by
  all_goals simp only [List.length_drop, List.length_cons]
  all_goals omega

/-- Characters consumed through the matching closing brace pair, given the
nesting depth opened so far.  Supports [tmplTotalLen]. -/
def tmplClose : Nat → List Char → Option Nat
  | _, [] => none
  | d, '{' :: '{' :: t => (tmplClose (d + 1) t).map (· + 2)
  | d, '}' :: '}' :: t => if d = 0 then some 2 else (tmplClose (d - 1) t).map (· + 2)
  | d, _ :: t => (tmplClose d t).map (· + 1)
  termination_by _ l => l.length
  decreasing_by
  all_goals simp only [List.length_drop, List.length_cons]
  all_goals omega

/-- Modelled from the spec: `mwparserfromhell.parse(text).filter_templates()`
is not part of this repository; the spec reduces it to the total serialized
length of template content, modelled here as the total length of balanced
double-brace spans. -/
def tmplTotalLen : List Char → Nat
  | [] => 0
  | '{' :: '{' :: t =>
    match tmplClose 0 t with
    | some c => (2 + c) + tmplTotalLen (t.drop c)
    | none => tmplTotalLen ('{' :: t)
  | _ :: t => tmplTotalLen t
  termination_by l => l.length
  decreasing_by
  all_goals simp only [List.length_drop, List.length_cons]
  all_goals omega

/-- Python `str.strip()`. -/
def pyStrip (l : List Char) : List Char :=
  ((l.dropWhile Char.isWhitespace).reverse.dropWhile Char.isWhitespace).reverse

/-- `EditGuardrails.is_citation_or_template`: a reference opening tag, a
`cite` template invocation (both case-insensitive), or template content
whose serialized length exceeds 70 percent of the text (the `> 0.7` float
comparison is the exact rational test `10 * total > 7 * length`). -/
def is_citation_or_template (text : List Char) : Bool :=
  let lower := text.map Char.toLower
  if hasRefOpenLower lower then true
  else if occursIn lower ['{', '{', 'c', 'i', 't', 'e'] then true
  else
    let tot := tmplTotalLen text
    decide (0 < tot) && decide (pyStrip text ≠ []) && decide (7 * text.length < 10 * tot)

/-! ## `difflib.SequenceMatcher` (CPython), as used by
`EditGuardrails.calculate_similarity`

The source constructs `SequenceMatcher(None, text1, text2)` and takes
`.ratio()`.  With `isjunk=None` the junk set `bjunk` is empty, and autojunk
removes "popular" elements from the index map `b2j` when `len(b) >= 200`.
`find_longest_match` keeps, per DP row, `j2len[j] =` length of the longest
`b2j`-indexed match ending at `a[i]`/`b[j]` (the invariant documented in the
CPython source); [runLen] is that quantity as a recurrence.  The two
extension loops below are difflib's non-junk extension loops, whose
`not isbjunk(..)` conjunct is vacuously true; the final two junk-extension
loops of the source never fire because `bjunk` is empty. -/

namespace SeqMatcher

/-- Autojunk popularity: with `n = len(b) >= 200`, elements occurring more
than `n // 100 + 1` times are dropped from `b2j`. -/
def popularB (b : List Char) (c : Char) : Bool :=
  decide (200 ≤ b.length) && decide (b.length / 100 + 1 < b.count c)

/-- `b2j[c]`: ascending indices of `c` in `b`; absent (empty) for popular
elements. -/
def b2jIdx (b : List Char) (c : Char) : List Nat :=
  if popularB b c then []
  else (List.range b.length).filter (fun j => decide (b.get? j = some c))

/-- The inner-loop index list for one DP row: `b2j.get(a[i], [])` restricted
to `blo <= j < bhi` (the `continue`/`break` guards, equivalent to filtering
an ascending list). -/
def jsFor (b : List Char) (blo bhi : Nat) (c : Char) : List Nat :=
  (b2jIdx b c).filter (fun j => decide (blo ≤ j) && decide (j < bhi))

/-- A DP cell `(i, j)` is live when `a[i] = b[j]`, that element is not
popular, and both indices lie in the searched ranges. -/
def okCell (a b : List Char) (alo ahi blo bhi i j : Nat) : Bool :=
  (match a.get? i, b.get? j with
   | some x, some y => decide (x = y) && !popularB b y
   | _, _ => false) &&
  decide (alo ≤ i) && decide (i < ahi) && decide (blo ≤ j) && decide (j < bhi)

/-- The value `j2len[j]` holds at row `i`: length of the longest live match
run ending at `(i, j)`.  The `j2lenget(j-1, 0)` lookup of the source reads
the previous row, with default `0` at the row start or at `j = 0`. -/
def runLen (a b : List Char) (alo ahi blo bhi : Nat) : Nat → Nat → Nat
  | i, j =>
    if okCell a b alo ahi blo bhi i j then
      (if _h : alo < i ∧ 0 < j then runLen a b alo ahi blo bhi (i - 1) (j - 1) else 0) + 1
    else 0
  termination_by i _ => i
  decreasing_by omega

/-- One inner-loop step: `if k > bestsize: besti, bestj, bestsize =
i-k+1, j-k+1, k`. -/
def procCell (a b : List Char) (alo ahi blo bhi i : Nat)
    (best : Nat × Nat × Nat) (j : Nat) : Nat × Nat × Nat :=
  let k := runLen a b alo ahi blo bhi i j
  if best.2.2 < k then (i + 1 - k, j + 1 - k, k) else best

/-- Indices scanned in row `i` (`b2j.get(a[i], nothing)` with range guards). -/
def rowFor (a b : List Char) (blo bhi i : Nat) : List Nat :=
  match a.get? i with
  | some c => jsFor b blo bhi c
  | none => []

/-- The DP phase of `find_longest_match`: fold the rows `alo <= i < ahi`
starting from `(alo, blo, 0)`. -/
def dpBest (a b : List Char) (alo ahi blo bhi : Nat) : Nat × Nat × Nat :=
  (List.range' alo (ahi - alo)).foldl
    (fun best i => (rowFor a b blo bhi i).foldl (procCell a b alo ahi blo bhi i) best)
    (alo, blo, 0)

/-- Backward extension loop: `while besti > alo and bestj > blo and
a[besti-1] == b[bestj-1]`. -/
def extendBack (a b : List Char) (alo blo : Nat) : Nat × Nat × Nat → Nat × Nat × Nat
  | (i, j, n) =>
    if _h : alo < i ∧ blo < j ∧ a.get? (i - 1) = b.get? (j - 1) then
      extendBack a b alo blo (i - 1, j - 1, n + 1)
    else (i, j, n)
  termination_by t => t.1
  decreasing_by omega

/-- Forward extension loop: `while besti+bestsize < ahi and bestj+bestsize <
bhi and a[besti+bestsize] == b[bestj+bestsize]`. -/
def extendFwd (a b : List Char) (ahi bhi : Nat) : Nat × Nat × Nat → Nat × Nat × Nat
  | (i, j, n) =>
    if _h : i + n < ahi ∧ j + n < bhi ∧ a.get? (i + n) = b.get? (j + n) then
      extendFwd a b ahi bhi (i, j, n + 1)
    else (i, j, n)
  termination_by t => ahi - (t.1 + t.2.2)
  decreasing_by omega

/-- `SequenceMatcher.find_longest_match` over `a[alo:ahi]`, `b[blo:bhi]`. -/
def find_longest_match (a b : List Char) (alo ahi blo bhi : Nat) : Nat × Nat × Nat :=
  extendFwd a b ahi bhi (extendBack a b alo blo (dpBest a b alo ahi blo bhi))

/-- The recursive decomposition computed by `get_matching_blocks`' explicit
queue: the longest match splits the range, and each side is explored exactly
when both of its intervals are non-empty.  The fuel argument only bounds the
recursion depth; `get_matching_blocks` supplies more fuel than any reachable
recursion can consume (each level shrinks the combined interval size by at
least two). -/
def blocksAux (a b : List Char) : Nat → Nat → Nat → Nat → Nat → List (Nat × Nat × Nat)
  | 0, _, _, _, _ => []
  | fuel + 1, alo, ahi, blo, bhi =>
    let m := find_longest_match a b alo ahi blo bhi
    if m.2.2 = 0 then []
    else
      (if alo < m.1 ∧ blo < m.2.1 then blocksAux a b fuel alo m.1 blo m.2.1 else []) ++
      m ::
      (if m.1 + m.2.2 < ahi ∧ m.2.1 + m.2.2 < bhi then
        blocksAux a b fuel (m.1 + m.2.2) ahi (m.2.1 + m.2.2) bhi
      else [])

/-- `SequenceMatcher.get_matching_blocks`, up to the final zero-size dummy
block and the adjacent-block collapse step, neither of which changes the
total matched length that `ratio` sums. -/
def get_matching_blocks (a b : List Char) : List (Nat × Nat × Nat) :=
  blocksAux a b (a.length + b.length + 1) 0 a.length 0 b.length

/-- `sum(triple[-1] for triple in blocks)`. -/
def sumSizes (l : List (Nat × Nat × Nat)) : Nat :=
  (l.map (fun t => t.2.2)).sum

/-- `SequenceMatcher.ratio` via `_calculate_ratio`: `2.0 * M / T`, and `1.0`
when `T = 0`. -/
def ratioQ (a b : List Char) : Rat :=
  let msum := sumSizes (get_matching_blocks a b)
  let total := a.length + b.length
  if total = 0 then 1 else 2 * (msum : Rat) / (total : Rat)

/-- The sublist `l[lo:hi]` (a Python slice). -/
def slice (l : List Char) (lo hi : Nat) : List Char :=
  (l.drop lo).take (hi - lo)

/-- A triple `(i, j, k)` is a genuine matching block: `a[i:i+k] = b[j:j+k]`. -/
def matchSlice (a b : List Char) (t : Nat × Nat × Nat) : Prop :=
  slice a t.1 (t.1 + t.2.2) = slice b t.2.1 (t.2.1 + t.2.2)

/-- The invariant maintained by the best triple during `find_longest_match`:
either it is still the initial `(alo, blo, 0)`, or it is a non-empty genuine
matching block within the searched ranges. -/
def validBest (a b : List Char) (alo ahi blo bhi : Nat) (t : Nat × Nat × Nat) : Prop :=
  t = (alo, blo, 0) ∨
  (alo ≤ t.1 ∧ blo ≤ t.2.1 ∧ t.1 + t.2.2 ≤ ahi ∧ t.2.1 + t.2.2 ≤ bhi ∧
    0 < t.2.2 ∧ matchSlice a b t)

end SeqMatcher

/-- `EditGuardrails.calculate_similarity`. -/
def calculate_similarity (text1 text2 : List Char) : Rat :=
  SeqMatcher.ratioQ text1 text2

/-! ## Edit validation (`EditGuardrails.validate_edit`,
`EditGuardrails.validate_full_article_edit`) -/

/-- Structured form of the `(is_valid, reason)` pair both validators return:
`accept` is `(True, "")`, and each reject constructor carries the number the
source interpolates into its reason string. -/
inductive ValidationResult where
  | accept
  | rejectSimilarity (simRat : Rat)
  | rejectNewWords (added : Nat)
  | rejectRemoval (pct : Nat)
  deriving DecidableEq, Repr

/-- `EditGuardrails.count_removed_content`: percentage of words removed,
floored; `0` when the original has no words. -/
def count_removed_content (original modified : List Char) : Nat :=
  let original_words := count_words original
  if original_words = 0 then 0
  else
    let modified_words := count_words modified
    let removed := original_words - modified_words
    removed * 100 / original_words

/-- `EditGuardrails.validate_edit`.  The two full-article arguments are
accepted and ignored, exactly as in the source (marked "reserved for future
use" there). -/
def validate_edit (cfg : GuardrailsConfig) (edit : ProposedEdit)
    (_full_original _full_modified : List Char) : ValidationResult :=
  if edit.edit_type.value = "citation" then .accept
  else
    let sim := calculate_similarity edit.original_text edit.proposed_text
    if sim < cfg.min_similarity_ratio then .rejectSimilarity sim
    else
      let original_words := count_words edit.original_text
      let proposed_words := count_words edit.proposed_text
      let added_words := proposed_words - original_words
      if cfg.max_new_words < (added_words : Int) ∧
          ¬is_citation_or_template edit.proposed_text then
        .rejectNewWords added_words
      else
        let removal_pct := count_removed_content edit.original_text edit.proposed_text
        if cfg.max_content_removal_pct < (removal_pct : Int) then .rejectRemoval removal_pct
        else .accept

/-- `EditGuardrails.validate_full_article_edit`.  In the source the removal
check precedes the added-words check (the reverse of the per-edit order),
and there is no citation/template exemption. -/
def validate_full_article_edit (cfg : GuardrailsConfig)
    (original modified : List Char) : ValidationResult :=
  let sim := calculate_similarity original modified
  if sim < cfg.min_similarity_ratio then .rejectSimilarity sim
  else
    let removal_pct := count_removed_content original modified
    if cfg.max_content_removal_pct < (removal_pct : Int) then .rejectRemoval removal_pct
    else
      let original_words := count_words original
      let modified_words := count_words modified
      let added_words := modified_words - original_words
      if cfg.max_new_words < (added_words : Int) then .rejectNewWords added_words
      else .accept

/-! ## Applying edits (`WikiEditAgent.apply_edits`) -/

/-- `WikiEditAgent.apply_edits`.  `sorted(...)` evaluates every key before
the loop mutates `modified_text`, so the keys are positions in the original
wikitext (`find` gives `-1` for an absent text, sorting those last); the
loop then replaces the first occurrence when the text is still present. -/
def apply_edits (article : Article) (edits : List ProposedEdit) : List Char :=
  let modified_text := article.wikitext
  let sorted_edits := sortDescBy (fun e => strFind modified_text e.original_text) edits
  sorted_edits.foldl
    (fun txt e =>
      if occursIn txt e.original_text then replaceFirst txt e.original_text e.proposed_text
      else txt)
    modified_text

/-! ## Spec-side definitions

Each of the following renders the wording of a claim (or of the spec sentence
it quotes) as a definition, to be compared against the embedded source
function. -/

/-- The per-edit check order asserted by the spec for a non-citation edit
(spec 4.2 steps 2 to 4): similarity first, then added words (with the
citation/template exemption of step 3), then removed content. -/
def claimOrderSingleEdit (cfg : GuardrailsConfig) (edit : ProposedEdit) : ValidationResult :=
  let sim := calculate_similarity edit.original_text edit.proposed_text
  if sim < cfg.min_similarity_ratio then .rejectSimilarity sim
  else
    let addedWords := count_words edit.proposed_text - count_words edit.original_text
    if cfg.max_new_words < (addedWords : Int) ∧
        ¬is_citation_or_template edit.proposed_text then
      .rejectNewWords addedWords
    else
      let removalPct := count_removed_content edit.original_text edit.proposed_text
      if cfg.max_content_removal_pct < (removalPct : Int) then .rejectRemoval removalPct
      else .accept

/-- The whole-article check order asserted by the claim: the same three
checks in the same order as the per-edit path (similarity, added words,
removed content), without the citation exemption. -/
def claimOrderFullArticle (cfg : GuardrailsConfig)
    (original modified : List Char) : ValidationResult :=
  let sim := calculate_similarity original modified
  if sim < cfg.min_similarity_ratio then .rejectSimilarity sim
  else
    let addedWords := count_words modified - count_words original
    if cfg.max_new_words < (addedWords : Int) then .rejectNewWords addedWords
    else
      let removalPct := count_removed_content original modified
      if cfg.max_content_removal_pct < (removalPct : Int) then .rejectRemoval removalPct
      else .accept

/-- The edit-summary shape asserted by the claim, parameterized by the
disclosure suffix the spec says is configurable: fixed-order clause list,
comma-joined, with the `Copyedit: ` prefix and the suffix appended after a
space; empty when no edit is approved. -/
def claimEditSummary (suffix : String) (p : EditProposal) : String :=
  if get_approved_edits p = [] then ""
  else
    let nCit := countType p .citationAdded
    let nWik := countType p .wikilinkAdded
    let nGra := countType p .grammarFix
    let nSty := countType p .styleFix
    let nPol := countType p .policyFix
    let nFor := countType p .formatFix
    let parts : List String :=
      (if 0 < nCit then ["added " ++ toString nCit ++ " citation" ++ pluralS nCit] else []) ++
      (if 0 < nWik then [toString nWik ++ " wikilink" ++ pluralS nWik] else []) ++
      (if 0 < nGra then ["fixed grammar"] else []) ++
      (if 0 < nSty then ["style fixes"] else []) ++
      (if 0 < nPol then ["policy compliance"] else []) ++
      (if 0 < nFor then ["formatting"] else [])
    "Copyedit: " ++ String.intercalate ", " parts ++ (" " ++ suffix)

/-- The `applyEdits` behaviour asserted by the claim: process the edits in
descending order of the position at which each original text is found in
the working text, replace only the first occurrence of an edit still
present, and silently skip an edit whose original text no longer occurs
(stated with the scanning formulations of search and replacement). -/
def claimApplyEdits (article : Article) (edits : List ProposedEdit) : List Char :=
  let working := article.wikitext
  (sortDescBy (fun e => strFind working e.original_text) edits).foldl
    (fun txt e =>
      if occursScan txt e.original_text then replaceScan txt e.original_text e.proposed_text
      else txt)
    working

/-! ## Concrete fixtures used by witnesses and counterexamples -/

/-- An approved citation edit. -/
def sampleCitationEdit : ProposedEdit :=
  { edit_type := .citationAdded
    original_text := ['a', ' ', 'b']
    proposed_text := ['a', ' ', 'b', 'c']
    approved := some true }

/-- An unapproved grammar edit (non-citation). -/
def sampleGrammarEdit : ProposedEdit :=
  { edit_type := .grammarFix
    original_text := ['a', ' ', 'b']
    proposed_text := ['a', ' ', 'c'] }

/-- A small article at revision `"5"`. -/
def sampleArticle : Article :=
  { title := "T", url := "u", wikitext := ['L', '1'], revision_id := "5" }

/-- A proposal holding one approved citation edit. -/
def sampleProposal : EditProposal :=
  { id := "1", article := sampleArticle, edits := [sampleCitationEdit] }

/-- A proposal with a single pending (never approved) edit. -/
def sampleProposalNoApproved : EditProposal :=
  { id := "2", article := sampleArticle, edits := [sampleGrammarEdit] }

/-- Environment whose live-revision fetch succeeds with the given string and
whose page operations succeed. -/
def envOkRev (r : String) : WikiEnv :=
  { fetchRevision := .ok r, pageAccess := .ok (), saveResult := .ok () }

/-- Environment whose live-revision fetch raises. -/
def envFetchError : WikiEnv :=
  { fetchRevision := .error "boom", pageAccess := .ok (), saveResult := .ok () }

/-- A wikipedia configuration whose disclosure suffix was overridden. -/
def cfgSuffixX : WikipediaConfig :=
  { edit_summary_suffix := "XYZ" }

/-! ## Claim C1 -/

/-- C1: for every proposed edit whose edit type is Citation, `validate_edit`
accepts it (the `(True, "")` result) unconditionally, for every
configuration of the similarity, added-word and removed-content thresholds
and for any full-article arguments. -/
theorem c1_citation_edit_always_accepted (cfg : GuardrailsConfig)
    (edit : ProposedEdit) (fullOriginal fullModified : List Char)
    (h : edit.edit_type = .citationAdded) :
    validate_edit cfg edit fullOriginal fullModified = .accept := by
  simp [validate_edit, h, EditType.value]

/-- Witness for C1 at a concrete citation edit. -/
theorem c1_witness :
    sampleCitationEdit.edit_type = .citationAdded ∧
    validate_edit defaultGuardrails sampleCitationEdit [] [] = .accept :=
  ⟨rfl, c1_citation_edit_always_accepted defaultGuardrails sampleCitationEdit [] [] rfl⟩

/-! ## Claim C10 -/

/-- C10: the result of `validate_edit` depends only on the edit itself and
the configured thresholds; the two full-article arguments are ignored, so
any two pairs of them give identical results. -/
theorem c10_validate_edit_ignores_full_texts (cfg : GuardrailsConfig)
    (edit : ProposedEdit) (fullOriginal fullModified altOriginal altModified : List Char) :
    validate_edit cfg edit fullOriginal fullModified =
      validate_edit cfg edit altOriginal altModified := rfl

/-! ## Claim C5 -/

/-- C5: `check_for_conflicts` returns true exactly when the fetched live
revision differs from the base revision, false when they are equal, and
true whenever the retrieval raises an error (fail-closed). -/
theorem c5_conflict_fail_closed (env : WikiEnv) (base r e : String) :
    (env.fetchRevision = .ok r → r ≠ base → check_for_conflicts env base = true) ∧
    (env.fetchRevision = .ok r → r = base → check_for_conflicts env base = false) ∧
    (env.fetchRevision = .error e → check_for_conflicts env base = true) := by
  refine ⟨fun h hne => ?_, fun h heq => ?_, fun h => ?_⟩ <;>
    simp [check_for_conflicts, h]
  · exact hne
  · exact heq

/-- Witness for C5: a differing revision, an equal revision, and a raising
fetch, each through the theorem. -/
theorem c5_witness :
    check_for_conflicts (envOkRev "9") "5" = true ∧
    check_for_conflicts (envOkRev "5") "5" = false ∧
    check_for_conflicts envFetchError "5" = true :=
  ⟨(c5_conflict_fail_closed (envOkRev "9") "5" "9" "e").1 rfl (by decide),
   (c5_conflict_fail_closed (envOkRev "5") "5" "5" "e").2.1 rfl rfl,
   (c5_conflict_fail_closed envFetchError "5" "r" "boom").2.2 rfl⟩

/-! ## Claim C6 -/

/-- C6 counterexample: with `maxEditsPerHour = 0`, every recorded timestamp
(vacuously, there are none after zero `record_edit` calls) is older than one
hour, yet `can_edit` returns false, refuting the claim that it "returns true
again" once all recorded timestamps have aged out. -/
theorem c6_counterexample :
    (∀ t ∈ ([] : List Int), t ≤ 7200 - 3600) ∧ (can_edit 0 7200 []).1 = false := by
  refine ⟨?_, rfl⟩
  intro t ht
  simp at ht

/-- C6 (amended: the recovery clause additionally needs
`maxEditsPerHour >= 1`): `can_edit` prunes the timestamps older than one
hour before `now` and returns whether fewer than `maxEditsPerHour` remain;
with exactly `maxEditsPerHour` recorded timestamps all within the past hour
it returns false, and when every recorded timestamp is at least one hour
old it returns true provided `maxEditsPerHour` is positive. -/
theorem c6_rate_limit_window (maxE now : Int) (times : List Int) :
    can_edit maxE now times =
      (decide (((pruneTimes now times).length : Int) < maxE), pruneTimes now times) ∧
    ((times.length : Int) = maxE → (∀ t ∈ times, now - 3600 < t) →
      (can_edit maxE now times).1 = false) ∧
    (0 < maxE → (∀ t ∈ times, t ≤ now - 3600) →
      (can_edit maxE now times).1 = true) := by
  refine ⟨rfl, fun hlen hall => ?_, fun hpos hall => ?_⟩
  · have hfilter : pruneTimes now times = times := by
      apply List.filter_eq_self.mpr
      intro t ht
      simpa using hall t ht
    simp [can_edit, hfilter, hlen]
  · have hfilter : pruneTimes now times = [] := by
      apply List.filter_eq_nil_iff.mpr
      intro t ht
      simpa using hall t ht
    simp [can_edit, hfilter, hpos]

/-- Witness for C6: the cap is reached with two in-window timestamps, and
recovery happens once both timestamps are stale. -/
theorem c6_witness :
    (can_edit 2 7200 [5000, 6000]).1 = false ∧ (can_edit 2 7200 [0, 100]).1 = true :=
  ⟨(c6_rate_limit_window 2 7200 [5000, 6000]).2.1 (by decide) (by decide),
   (c6_rate_limit_window 2 7200 [0, 100]).2.2 (by decide) (by decide)⟩

/-! ## Claim C3 -/

/-- C3: `push_edits` applies its gates in the fixed order rate limit, then
conflict, then empty summary, each a hard failure; in particular a
rate-limited push fails with the rate-limit reason regardless of the
conflict state of the environment. -/
theorem c3_push_gate_order (maxE now : Int) (env : WikiEnv) (times : List Int)
    (p : EditProposal) (txt : List Char) :
    ((can_edit maxE now times).1 = false →
      push_edits maxE now env times p txt =
        ((false, "Rate limit exceeded. Please wait before making more edits."),
          pruneTimes now times)) ∧
    ((can_edit maxE now times).1 = true →
      check_for_conflicts env p.article.revision_id = true →
      push_edits maxE now env times p txt =
        ((false,
          "Edit conflict: article has been modified since analysis. Please re-analyze."),
          pruneTimes now times)) ∧
    ((can_edit maxE now times).1 = true →
      check_for_conflicts env p.article.revision_id = false →
      get_edit_summary p = "" →
      push_edits maxE now env times p txt =
        ((false, "No approved edits to push"), pruneTimes now times)) := by
  refine ⟨fun h1 => ?_, fun h1 h2 => ?_, fun h1 h2 h3 => ?_⟩
  · simp [push_edits, h1]; rfl
  · simp [push_edits, h1, h2]; rfl
  · simp [push_edits, h1, h2, h3]; rfl

/-- Witness for C3: a push that is simultaneously rate limited
(`maxEditsPerHour = 0`) and in conflict (live revision `"9"` against base
`"5"`) fails with the rate-limit reason; the conflict and no-approved-edit
gates are also exercised. -/
theorem c3_witness :
    push_edits 0 0 (envOkRev "9") [] sampleProposal [] =
      ((false, "Rate limit exceeded. Please wait before making more edits."), []) ∧
    push_edits 10 0 (envOkRev "9") [] sampleProposal [] =
      ((false,
        "Edit conflict: article has been modified since analysis. Please re-analyze."), []) ∧
    push_edits 10 0 (envOkRev "5") [] sampleProposalNoApproved [] =
      ((false, "No approved edits to push"), []) :=
  ⟨(c3_push_gate_order 0 0 (envOkRev "9") [] sampleProposal []).1 rfl,
   (c3_push_gate_order 10 0 (envOkRev "9") [] sampleProposal []).2.1 rfl (by decide),
   (c3_push_gate_order 10 0 (envOkRev "5") [] sampleProposalNoApproved []).2.2 rfl
     (by decide) (by decide)⟩

/-! ## Claim C4 -/

/-- C4 counterexample: a push that fails (here on the conflict gate) can
still change the recorded-timestamp sequence, because the `can_edit` call
inside `push_edits` prunes the stale timestamp `0`; the claim that the
sequence is unchanged by a failed push is false at this input. -/
theorem c4_counterexample :
    (push_edits 10 7200 (envOkRev "9") [0] sampleProposal []).1.1 = false ∧
    (push_edits 10 7200 (envOkRev "9") [0] sampleProposal []).2 ≠ [0] := by
  exact ⟨by decide, by decide⟩

/-- C4 (amended: `record_edit` is called exactly on submission success, so a
failed push leaves the timestamp list equal to the pruned input list — the
stale entries removed by the `can_edit` gate — while only a successful push
appends the current timestamp). -/
theorem c4_quota_only_on_success (maxE now : Int) (env : WikiEnv) (times : List Int)
    (p : EditProposal) (txt : List Char) :
    ((push_edits maxE now env times p txt).1.1 = false →
      (push_edits maxE now env times p txt).2 = pruneTimes now times) ∧
    ((push_edits maxE now env times p txt).1.1 = true →
      (push_edits maxE now env times p txt).2 = pruneTimes now times ++ [now]) := by
  rcases hpa : env.pageAccess with e | u <;>
    rcases hsv : env.saveResult with e2 | u2 <;>
      by_cases h1 : (can_edit maxE now times).1 = true <;>
        by_cases h2 : check_for_conflicts env p.article.revision_id = true <;>
          by_cases h3 : get_edit_summary p = "" <;>
            constructor <;> intro h <;>
              simp_all [push_edits, record_edit] <;> rfl

/-- Witness for C4: a conflict-failing push keeps the pruned list, and a
fully successful push appends the current timestamp. -/
theorem c4_witness :
    (push_edits 10 7200 (envOkRev "9") [0] sampleProposal []).2 = pruneTimes 7200 [0] ∧
    (push_edits 10 0 (envOkRev "5") [] sampleProposal []).2 = pruneTimes 0 [] ++ [0] :=
  ⟨(c4_quota_only_on_success 10 7200 (envOkRev "9") [0] sampleProposal []).1 (by decide),
   (c4_quota_only_on_success 10 0 (envOkRev "5") [] sampleProposal []).2 (by decide)⟩

/-! ## Claim C7 -/

/-- C7 counterexample: with the configured disclosure suffix overridden to
`"XYZ"`, the summary produced for a proposal with one approved citation edit
does not end with the configured suffix — `get_edit_summary` hardcodes the
default disclosure string and never reads the configuration. -/
theorem c7_counterexample :
    cfgSuffixX.edit_summary_suffix = "XYZ" ∧
    cfgSuffixX.edit_summary_suffix.data.isSuffixOf
      (get_edit_summary sampleProposal).data = false := by
  exact ⟨rfl, by decide⟩

/-- C7 (amended: the summary is suffixed with the fixed default disclosure
string, not with the configured suffix): for every proposal,
`get_edit_summary` groups the approved edits by type, emits the clauses in
the fixed order citations, wikilinks, fixed grammar, style fixes, policy
compliance, formatting, joins them with commas, prefixes `Copyedit: ` and
appends the default disclosure suffix after a space, returning the empty
string when no edit is approved. -/
theorem c7_edit_summary_shape (p : EditProposal) :
    get_edit_summary p =
      claimEditSummary defaultWikipedia.edit_summary_suffix p := by
  unfold get_edit_summary claimEditSummary
  have h : ((" " ++ "(AI-assisted citation/cleanup, human-reviewed)") : String) =
      " (AI-assisted citation/cleanup, human-reviewed)" := by decide
  split
  · rfl
  · show _ = "Copyedit: " ++ _ ++ (" " ++ defaultWikipedia.edit_summary_suffix)
    rw [show defaultWikipedia.edit_summary_suffix =
      "(AI-assisted citation/cleanup, human-reviewed)" from rfl, h]

/-! ## Claim C8 -/

/-- The scanning occurrence test agrees with the index-based one. -/
theorem occursScan_eq_occursIn (hay pat : List Char) :
    occursScan hay pat = occursIn hay pat := by
  induction hay with
  | nil =>
    rw [occursScan, occursIn, findSub]
    by_cases h : pat.isPrefixOf ([] : List Char) <;> simp [h]
  | cons c t ih =>
    rw [occursScan, occursIn, findSub]
    by_cases h : pat.isPrefixOf (c :: t) <;> simp [h, ih, occursIn]

/-- The scanning replacement agrees with the index-based one. -/
theorem replaceScan_eq_replaceFirst (hay pat rep : List Char) :
    replaceScan hay pat rep = replaceFirst hay pat rep := by
  induction hay with
  | nil =>
    rw [replaceScan, replaceFirst, findSub]
    by_cases h : pat.isPrefixOf ([] : List Char) <;> simp [h]
  | cons c t ih =>
    rw [replaceScan, replaceFirst, findSub]
    by_cases h : pat.isPrefixOf (c :: t)
    · simp [h]
    · simp only [h, Bool.false_eq_true, if_false]
      rw [ih, replaceFirst]
      rcases hf : findSub t pat with _ | i
      · simp
      · have h2 : i + 1 + pat.length = (i + pat.length) + 1 := by omega
        simp [h2, List.take_succ_cons, List.drop_succ_cons]

/-- C8: `apply_edits` leaves the wikitext unchanged on an empty edit list,
and in general coincides with the claimed procedure: process the edits in
descending order of the position at which each original text is found in
the working text, replace only the first occurrence of a still-present
original text, and silently skip an edit whose original text no longer
occurs. -/
theorem c8_apply_edits_spec :
    (∀ article : Article, apply_edits article [] = article.wikitext) ∧
    (∀ (article : Article) (edits : List ProposedEdit),
      apply_edits article edits = claimApplyEdits article edits) := by
  constructor
  · intro article
    rfl
  · intro article edits
    unfold apply_edits claimApplyEdits
    simp [occursScan_eq_occursIn, replaceScan_eq_replaceFirst]

/-! ## Claim C2 -/

/-- A positive removal percentage needs the original to have strictly more
words than the modified text, so removal failures and added-word failures
are mutually exclusive (both use the same word counter). -/
theorem count_removed_content_pos {original modified : List Char}
    (h : 0 < count_removed_content original modified) :
    count_words modified < count_words original := by
  by_contra hcon
  push_neg at hcon
  have h0 : count_words original - count_words modified = 0 := by omega
  simp only [count_removed_content, h0, Nat.zero_mul, Nat.zero_div, ite_self,
    lt_self_iff_false] at h

/-- C2: for non-negative word thresholds, both validators behave as the
claimed fixed check order similarity, then added words, then removed
content, reporting the first failing check: the per-edit path is literally
in that order (with the citation/template exemption on the word cap), and
the whole-article path — whose source checks removal before added words —
is observationally equal to the claimed order because at most one of the
two word checks can fail. -/
theorem c2_fixed_check_order (cfg : GuardrailsConfig) (edit : ProposedEdit)
    (fullOriginal fullModified original modified : List Char)
    (hnw : 0 ≤ cfg.max_new_words) (hrm : 0 ≤ cfg.max_content_removal_pct) :
    (edit.edit_type.value ≠ "citation" →
      validate_edit cfg edit fullOriginal fullModified = claimOrderSingleEdit cfg edit) ∧
    validate_full_article_edit cfg original modified =
      claimOrderFullArticle cfg original modified := by
  constructor
  · intro h
    rw [validate_edit, if_neg h]
    rfl
  · simp only [validate_full_article_edit, claimOrderFullArticle]
    by_cases hs : calculate_similarity original modified < cfg.min_similarity_ratio
    · simp [hs]
    · by_cases hr :
        cfg.max_content_removal_pct < ((count_removed_content original modified : Nat) : Int)
      · have hpos : 0 < count_removed_content original modified := by omega
        have hlt := count_removed_content_pos hpos
        have hadd : count_words modified - count_words original = 0 := by omega
        have hnadd :
            ¬cfg.max_new_words < ((count_words modified - count_words original : Nat) : Int) := by
          rw [hadd]
          push_cast
          omega
        simp [hs, hr, hnadd]
      · by_cases ha :
          cfg.max_new_words < ((count_words modified - count_words original : Nat) : Int)
        · simp [hs, hr, ha]
        · simp [hs, hr, ha]

/-- Witness for C2 at the default thresholds, a concrete non-citation edit
and concrete article texts. -/
theorem c2_witness :
    (0 : Int) ≤ defaultGuardrails.max_new_words ∧
    (0 : Int) ≤ defaultGuardrails.max_content_removal_pct ∧
    validate_edit defaultGuardrails sampleGrammarEdit [] [] =
      claimOrderSingleEdit defaultGuardrails sampleGrammarEdit ∧
    validate_full_article_edit defaultGuardrails ['a'] ['a'] =
      claimOrderFullArticle defaultGuardrails ['a'] ['a'] :=
  ⟨by decide, by decide,
   (c2_fixed_check_order defaultGuardrails sampleGrammarEdit [] [] ['a'] ['a']
     (by decide) (by decide)).1 (by decide),
   (c2_fixed_check_order defaultGuardrails sampleGrammarEdit [] [] ['a'] ['a']
     (by decide) (by decide)).2⟩

/-! ## Claim C9: supporting lemmas about the `SequenceMatcher` embedding -/

namespace SeqMatcher

/-- One-element take after a drop is the optional element at that index. -/
theorem take_one_drop (l : List Char) (i : Nat) :
    (l.drop i).take 1 = (l.get? i).toList := by
  induction l generalizing i with
  | nil => simp
  | cons c t ih =>
    cases i with
    | zero => simp
    | succ i => simpa using ih i

/-- Slices split at an interior point. -/
theorem slice_append (l : List Char) {lo mid hi : Nat}
    (h1 : lo ≤ mid) (h2 : mid ≤ hi) :
    slice l lo hi = slice l lo mid ++ slice l mid hi := by
  unfold slice
  have h3 : hi - lo = (mid - lo) + (hi - mid) := by omega
  rw [h3, List.take_add]
  congr 1
  rw [List.drop_drop]
  congr 2
  omega

/-- Singleton slices at positions holding equal optional elements agree. -/
theorem slice_singleton {a b : List Char} {i j : Nat}
    (h : a.get? i = b.get? j) :
    slice a i (i + 1) = slice b j (j + 1) := by
  unfold slice
  simp only [Nat.add_sub_cancel_left]
  rw [take_one_drop, take_one_drop, h]

/-- Empty slices. -/
theorem slice_self (l : List Char) (lo : Nat) : slice l lo lo = [] := by
  simp [slice]

/-- The full slice. -/
theorem slice_full (l : List Char) : slice l 0 l.length = l := by
  simp [slice]

/-- A cell outside the live set contributes a zero run. -/
theorem runLen_zero_of_not_ok {a b : List Char} {alo ahi blo bhi i j : Nat}
    (h : ¬okCell a b alo ahi blo bhi i j = true) :
    runLen a b alo ahi blo bhi i j = 0 := by
  rw [runLen, if_neg h]

/-- A positive run needs a live cell. -/
theorem okCell_of_runLen_pos {a b : List Char} {alo ahi blo bhi i j : Nat}
    (h : 0 < runLen a b alo ahi blo bhi i j) :
    okCell a b alo ahi blo bhi i j = true := by
  by_contra hok
  rw [runLen_zero_of_not_ok hok] at h
  exact absurd h (lt_irrefl 0)

/-- Range facts of a live cell. -/
theorem okCell_bounds {a b : List Char} {alo ahi blo bhi i j : Nat}
    (h : okCell a b alo ahi blo bhi i j = true) :
    alo ≤ i ∧ i < ahi ∧ blo ≤ j ∧ j < bhi := by
  simp only [okCell, Bool.and_eq_true, decide_eq_true_eq] at h
  exact ⟨h.1.1.1.2, h.1.1.2, h.1.2, h.2⟩

/-- Element facts of a live cell. -/
theorem okCell_chars {a b : List Char} {alo ahi blo bhi i j : Nat}
    (h : okCell a b alo ahi blo bhi i j = true) :
    ∃ x, a.get? i = some x ∧ b.get? j = some x ∧ popularB b x = false := by
  simp only [okCell, Bool.and_eq_true, decide_eq_true_eq] at h
  have hm := h.1.1.1.1
  revert hm
  rcases ha : a.get? i with _ | x <;> rcases hb : b.get? j with _ | y <;> simp
  intro hxy hpop
  subst hxy
  exact ⟨rfl, hpop⟩

/-- Run lengths are bounded by the distance to the left edge of the `a`
range. -/
theorem runLen_le_a (a b : List Char) (alo ahi blo bhi : Nat) :
    ∀ i j, runLen a b alo ahi blo bhi i j ≤ i + 1 - alo := by
  intro i
  induction i using Nat.strong_induction_on with
  | _ i ih =>
    intro j
    rw [runLen]
    split
    · next hok =>
      have hb := okCell_bounds hok
      split
      · next hg =>
        have := ih (i - 1) (by omega) (j - 1)
        omega
      · omega
    · omega

/-- Run lengths are bounded by the distance to the left edge of the `b`
range. -/
theorem runLen_le_b (a b : List Char) (alo ahi blo bhi : Nat) :
    ∀ i j, runLen a b alo ahi blo bhi i j ≤ j + 1 - blo := by
  intro i
  induction i using Nat.strong_induction_on with
  | _ i ih =>
    intro j
    rw [runLen]
    split
    · next hok =>
      have hb := okCell_bounds hok
      split
      · next hg =>
        have := ih (i - 1) (by omega) (j - 1)
        omega
      · omega
    · omega

/-- A run of length `k` ending at `(i, j)` witnesses equal slices of that
length ending just past `i` and `j`. -/
theorem runLen_slice (a b : List Char) (alo ahi blo bhi : Nat) :
    ∀ i j, 0 < runLen a b alo ahi blo bhi i j →
      slice a (i + 1 - runLen a b alo ahi blo bhi i j) (i + 1) =
        slice b (j + 1 - runLen a b alo ahi blo bhi i j) (j + 1) := by
  intro i
  induction i using Nat.strong_induction_on with
  | _ i ih =>
    intro j hpos
    have hok := okCell_of_runLen_pos hpos
    obtain ⟨x, hax, hbx, _⟩ := okCell_chars hok
    have hsing : slice a i (i + 1) = slice b j (j + 1) :=
      slice_singleton (by rw [hax, hbx])
    rw [runLen, if_pos hok]
    by_cases hg : alo < i ∧ 0 < j
    · rw [dif_pos hg]
      by_cases hz : runLen a b alo ahi blo bhi (i - 1) (j - 1) = 0
      · rw [hz]
        simpa using hsing
      · have hrec := ih (i - 1) (by omega) (j - 1) (by omega)
        have hla := runLen_le_a a b alo ahi blo bhi (i - 1) (j - 1)
        have hlb := runLen_le_b a b alo ahi blo bhi (i - 1) (j - 1)
        set k' := runLen a b alo ahi blo bhi (i - 1) (j - 1) with hk'
        have e1 : i + 1 - (k' + 1) = i - k' := by omega
        have e2 : j + 1 - (k' + 1) = j - k' := by omega
        have e3 : (i - 1) + 1 - k' = i - k' := by omega
        have e4 : (j - 1) + 1 - k' = j - k' := by omega
        have e5 : (i - 1) + 1 = i := by omega
        have e6 : (j - 1) + 1 = j := by omega
        rw [e1, e2]
        rw [e3, e4, e5, e6] at hrec
        rw [slice_append a (by omega : i - k' ≤ i) (by omega : i ≤ i + 1),
          slice_append b (by omega : j - k' ≤ j) (by omega : j ≤ j + 1)]
        rw [hrec, hsing]
    · rw [dif_neg hg]
      simpa using hsing

/-- Invariants survive a left fold whose step preserves them. -/
theorem foldl_preserve {α β : Type} {P : β → Prop} (f : β → α → β)
    (hf : ∀ st x, P st → P (f st x)) :
    ∀ (l : List α) (st : β), P st → P (l.foldl f st) := by
  intro l
  induction l with
  | nil => intro st h; exact h
  | cons x xs ih => intro st h; exact ih _ (hf _ _ h)

/-- One DP step preserves the best-triple invariant (for any row and
column index whatsoever: a strict improvement always installs a genuine
in-range block). -/
theorem procCell_valid (a b : List Char) (alo ahi blo bhi i : Nat)
    (best : Nat × Nat × Nat) (j : Nat)
    (hv : validBest a b alo ahi blo bhi best) :
    validBest a b alo ahi blo bhi (procCell a b alo ahi blo bhi i best j) := by
  show validBest a b alo ahi blo bhi
    (if best.2.2 < runLen a b alo ahi blo bhi i j then
      (i + 1 - runLen a b alo ahi blo bhi i j, j + 1 - runLen a b alo ahi blo bhi i j,
        runLen a b alo ahi blo bhi i j)
    else best)
  split
  · next hlt =>
    right
    dsimp only
    have hpos : 0 < runLen a b alo ahi blo bhi i j := by omega
    have hok := okCell_of_runLen_pos hpos
    obtain ⟨halo, hahi, hblo, hbhi⟩ := okCell_bounds hok
    have hla := runLen_le_a a b alo ahi blo bhi i j
    have hlb := runLen_le_b a b alo ahi blo bhi i j
    have hsl := runLen_slice a b alo ahi blo bhi i j hpos
    refine ⟨by omega, by omega, by omega, by omega, hpos, ?_⟩
    unfold matchSlice
    dsimp only
    have e1 : i + 1 - runLen a b alo ahi blo bhi i j + runLen a b alo ahi blo bhi i j
        = i + 1 := by omega
    have e2 : j + 1 - runLen a b alo ahi blo bhi i j + runLen a b alo ahi blo bhi i j
        = j + 1 := by omega
    rw [e1, e2]
    exact hsl
  · exact hv

/-- The DP phase establishes the best-triple invariant. -/
theorem dpBest_valid (a b : List Char) (alo ahi blo bhi : Nat) :
    validBest a b alo ahi blo bhi (dpBest a b alo ahi blo bhi) := by
  unfold dpBest
  apply foldl_preserve
  · intro st i hst
    exact foldl_preserve _ (fun st' j h => procCell_valid a b alo ahi blo bhi i st' j h)
      _ _ hst
  · exact Or.inl rfl

/-- The backward extension loop preserves the best-triple invariant. -/
theorem extendBack_valid (a b : List Char) (alo ahi blo bhi : Nat) :
    ∀ (i j n : Nat), validBest a b alo ahi blo bhi (i, j, n) →
      validBest a b alo ahi blo bhi (extendBack a b alo blo (i, j, n)) := by
  intro i
  induction i using Nat.strong_induction_on with
  | _ i ih =>
    intro j n hv
    rw [extendBack]
    split
    · next hg =>
      obtain ⟨hg1, hg2, hg3⟩ := hg
      apply ih (i - 1) (by omega) (j - 1) (n + 1)
      right
      dsimp only
      have hsing : slice a (i - 1) i = slice b (j - 1) j := by
        have h := slice_singleton hg3
        have e1 : i - 1 + 1 = i := by omega
        have e2 : j - 1 + 1 = j := by omega
        rwa [e1, e2] at h
      rcases hv with heq | ⟨h1, h2, h3, h4, h5, h6⟩
      · exfalso
        have : i = alo := by
          have := congrArg Prod.fst heq
          simpa using this
        omega
      · dsimp only at h1 h2 h3 h4 h5
        refine ⟨by omega, by omega, by omega, by omega, by omega, ?_⟩
        unfold matchSlice at h6 ⊢
        dsimp only at h6 ⊢
        have e1 : i - 1 + (n + 1) = i + n := by omega
        have e2 : j - 1 + (n + 1) = j + n := by omega
        rw [e1, e2,
          slice_append a (by omega : i - 1 ≤ i) (by omega : i ≤ i + n),
          slice_append b (by omega : j - 1 ≤ j) (by omega : j ≤ j + n),
          hsing, h6]
    · exact hv

/-- The forward extension loop preserves the best-triple invariant. -/
theorem extendFwd_valid (a b : List Char) (alo ahi blo bhi : Nat) :
    ∀ (fuel i j n : Nat), ahi - (i + n) ≤ fuel →
      validBest a b alo ahi blo bhi (i, j, n) →
      validBest a b alo ahi blo bhi (extendFwd a b ahi bhi (i, j, n)) := by
  intro fuel
  induction fuel with
  | zero =>
    intro i j n hfuel hv
    rw [extendFwd]
    split
    · next hg => omega
    · exact hv
  | succ fuel ih =>
    intro i j n hfuel hv
    rw [extendFwd]
    split
    · next hg =>
      obtain ⟨hg1, hg2, hg3⟩ := hg
      apply ih i j (n + 1) (by omega)
      right
      dsimp only
      have hsing : slice a (i + n) (i + n + 1) = slice b (j + n) (j + n + 1) :=
        slice_singleton hg3
      rcases hv with heq | ⟨h1, h2, h3, h4, h5, h6⟩
      · have hi : i = alo := by
          have := congrArg Prod.fst heq
          simpa using this
        have hj : j = blo := by
          have := congrArg (fun t => t.2.1) heq
          simpa using this
        have hn : n = 0 := by
          have := congrArg (fun t => t.2.2) heq
          simpa using this
        subst hi; subst hj; subst hn
        refine ⟨le_refl _, le_refl _, by omega, by omega, by omega, ?_⟩
        unfold matchSlice
        dsimp only
        simpa using hsing
      · dsimp only at h1 h2 h3 h4 h5
        refine ⟨h1, h2, by omega, by omega, by omega, ?_⟩
        unfold matchSlice at h6 ⊢
        dsimp only at h6 ⊢
        rw [show i + (n + 1) = i + n + 1 from rfl, show j + (n + 1) = j + n + 1 from rfl,
          slice_append a (by omega : i ≤ i + n) (by omega : i + n ≤ i + n + 1),
          slice_append b (by omega : j ≤ j + n) (by omega : j + n ≤ j + n + 1),
          h6, hsing]
    · exact hv

/-- `find_longest_match` returns either the trivial `(alo, blo, 0)` or a
genuine non-empty matching block within the searched ranges. -/
theorem flm_valid (a b : List Char) (alo ahi blo bhi : Nat) :
    validBest a b alo ahi blo bhi (find_longest_match a b alo ahi blo bhi) := by
  unfold find_longest_match
  have h0 := dpBest_valid a b alo ahi blo bhi
  rcases hdp : dpBest a b alo ahi blo bhi with ⟨i0, j0, n0⟩
  rw [hdp] at h0
  have h1 := extendBack_valid a b alo ahi blo bhi i0 j0 n0 h0
  rcases heb : extendBack a b alo blo (i0, j0, n0) with ⟨i1, j1, n1⟩
  rw [heb] at h1
  exact extendFwd_valid a b alo ahi blo bhi ahi i1 j1 n1 (by omega) h1

/-- The facts `blocksAux` needs about a non-trivial longest match. -/
theorem flm_spec (a b : List Char) (alo ahi blo bhi : Nat)
    (h : (find_longest_match a b alo ahi blo bhi).2.2 ≠ 0) :
    alo ≤ (find_longest_match a b alo ahi blo bhi).1 ∧
    blo ≤ (find_longest_match a b alo ahi blo bhi).2.1 ∧
    (find_longest_match a b alo ahi blo bhi).1 +
      (find_longest_match a b alo ahi blo bhi).2.2 ≤ ahi ∧
    (find_longest_match a b alo ahi blo bhi).2.1 +
      (find_longest_match a b alo ahi blo bhi).2.2 ≤ bhi ∧
    matchSlice a b (find_longest_match a b alo ahi blo bhi) := by
  rcases flm_valid a b alo ahi blo bhi with heq | ⟨h1, h2, h3, h4, h5, h6⟩
  · exfalso
    apply h
    rw [heq]
  · exact ⟨h1, h2, h3, h4, h6⟩

/-- Unfolding of one level of the block decomposition. -/
theorem blocksAux_succ (a b : List Char) (fuel alo ahi blo bhi : Nat) :
    blocksAux a b (fuel + 1) alo ahi blo bhi =
      (if (find_longest_match a b alo ahi blo bhi).2.2 = 0 then [] else
        (if alo < (find_longest_match a b alo ahi blo bhi).1 ∧
            blo < (find_longest_match a b alo ahi blo bhi).2.1 then
          blocksAux a b fuel alo (find_longest_match a b alo ahi blo bhi).1
            blo (find_longest_match a b alo ahi blo bhi).2.1
        else []) ++
        find_longest_match a b alo ahi blo bhi ::
        (if (find_longest_match a b alo ahi blo bhi).1 +
              (find_longest_match a b alo ahi blo bhi).2.2 < ahi ∧
            (find_longest_match a b alo ahi blo bhi).2.1 +
              (find_longest_match a b alo ahi blo bhi).2.2 < bhi then
          blocksAux a b fuel
            ((find_longest_match a b alo ahi blo bhi).1 +
              (find_longest_match a b alo ahi blo bhi).2.2) ahi
            ((find_longest_match a b alo ahi blo bhi).2.1 +
              (find_longest_match a b alo ahi blo bhi).2.2) bhi
        else [])) := rfl

/-- Matched length of the empty block list. -/
theorem sumSizes_nil : sumSizes [] = 0 := rfl

/-- Matched length of a cons. -/
theorem sumSizes_cons (t : Nat × Nat × Nat) (l : List (Nat × Nat × Nat)) :
    sumSizes (t :: l) = t.2.2 + sumSizes l := by
  simp [sumSizes]

/-- Matched length of an append. -/
theorem sumSizes_append (l1 l2 : List (Nat × Nat × Nat)) :
    sumSizes (l1 ++ l2) = sumSizes l1 + sumSizes l2 := by
  simp [sumSizes]

/-- The total matched length is at most the length of each searched range
(the matching blocks are disjoint within each sequence). -/
theorem blocksAux_le (a b : List Char) :
    ∀ (fuel alo ahi blo bhi : Nat), (ahi - alo) + (bhi - blo) < fuel →
      sumSizes (blocksAux a b fuel alo ahi blo bhi) ≤ ahi - alo ∧
      sumSizes (blocksAux a b fuel alo ahi blo bhi) ≤ bhi - blo := by
  intro fuel
  induction fuel with
  | zero => intro alo ahi blo bhi h; omega
  | succ fuel ih =>
    intro alo ahi blo bhi hfuel
    rw [blocksAux_succ]
    set m := find_longest_match a b alo ahi blo bhi with hm
    by_cases hk : m.2.2 = 0
    · rw [if_pos hk]
      simp [sumSizes]
    · rw [if_neg hk]
      obtain ⟨h1, h2, h3, h4, _⟩ := flm_spec a b alo ahi blo bhi (by rw [← hm]; exact hk)
      rw [← hm] at h1 h2 h3 h4
      rw [sumSizes_append, sumSizes_cons]
      have hL : sumSizes (if alo < m.1 ∧ blo < m.2.1 then
            blocksAux a b fuel alo m.1 blo m.2.1 else []) ≤ m.1 - alo ∧
          sumSizes (if alo < m.1 ∧ blo < m.2.1 then
            blocksAux a b fuel alo m.1 blo m.2.1 else []) ≤ m.2.1 - blo := by
        split
        · exact ih alo m.1 blo m.2.1 (by omega)
        · simp [sumSizes]
      have hR : sumSizes (if m.1 + m.2.2 < ahi ∧ m.2.1 + m.2.2 < bhi then
            blocksAux a b fuel (m.1 + m.2.2) ahi (m.2.1 + m.2.2) bhi else []) ≤
              ahi - (m.1 + m.2.2) ∧
          sumSizes (if m.1 + m.2.2 < ahi ∧ m.2.1 + m.2.2 < bhi then
            blocksAux a b fuel (m.1 + m.2.2) ahi (m.2.1 + m.2.2) bhi else []) ≤
              bhi - (m.2.1 + m.2.2) := by
        split
        · exact ih (m.1 + m.2.2) ahi (m.2.1 + m.2.2) bhi (by omega)
        · simp [sumSizes]
      omega

/-- When the matching blocks tile both ranges completely, the two slices are
equal: the blocks appear in the same order in `a` and `b` and each block is
a genuine match. -/
theorem blocksAux_tiling (a b : List Char) :
    ∀ (fuel alo ahi blo bhi : Nat), (ahi - alo) + (bhi - blo) < fuel →
      sumSizes (blocksAux a b fuel alo ahi blo bhi) = ahi - alo →
      sumSizes (blocksAux a b fuel alo ahi blo bhi) = bhi - blo →
      slice a alo ahi = slice b blo bhi := by
  intro fuel
  induction fuel with
  | zero => intro alo ahi blo bhi h; omega
  | succ fuel ih =>
    intro alo ahi blo bhi hfuel ha hb
    rw [blocksAux_succ] at ha hb
    set m := find_longest_match a b alo ahi blo bhi with hm
    by_cases hk : m.2.2 = 0
    · rw [if_pos hk] at ha hb
      rw [sumSizes_nil] at ha hb
      have e1 : ahi - alo = 0 := by omega
      have e2 : bhi - blo = 0 := by omega
      unfold slice
      rw [e1, e2]
      simp
    · rw [if_neg hk] at ha hb
      obtain ⟨h1, h2, h3, h4, h6⟩ := flm_spec a b alo ahi blo bhi (by rw [← hm]; exact hk)
      rw [← hm] at h1 h2 h3 h4 h6
      rw [sumSizes_append, sumSizes_cons] at ha hb
      have hL : sumSizes (if alo < m.1 ∧ blo < m.2.1 then
            blocksAux a b fuel alo m.1 blo m.2.1 else []) ≤ m.1 - alo ∧
          sumSizes (if alo < m.1 ∧ blo < m.2.1 then
            blocksAux a b fuel alo m.1 blo m.2.1 else []) ≤ m.2.1 - blo := by
        split
        · exact blocksAux_le a b fuel alo m.1 blo m.2.1 (by omega)
        · simp [sumSizes]
      have hR : sumSizes (if m.1 + m.2.2 < ahi ∧ m.2.1 + m.2.2 < bhi then
            blocksAux a b fuel (m.1 + m.2.2) ahi (m.2.1 + m.2.2) bhi else []) ≤
              ahi - (m.1 + m.2.2) ∧
          sumSizes (if m.1 + m.2.2 < ahi ∧ m.2.1 + m.2.2 < bhi then
            blocksAux a b fuel (m.1 + m.2.2) ahi (m.2.1 + m.2.2) bhi else []) ≤
              bhi - (m.2.1 + m.2.2) := by
        split
        · exact blocksAux_le a b fuel (m.1 + m.2.2) ahi (m.2.1 + m.2.2) bhi (by omega)
        · simp [sumSizes]
      have hLa : sumSizes (if alo < m.1 ∧ blo < m.2.1 then
            blocksAux a b fuel alo m.1 blo m.2.1 else []) = m.1 - alo ∧
          sumSizes (if alo < m.1 ∧ blo < m.2.1 then
            blocksAux a b fuel alo m.1 blo m.2.1 else []) = m.2.1 - blo := by
        constructor <;> omega
      have hRa : sumSizes (if m.1 + m.2.2 < ahi ∧ m.2.1 + m.2.2 < bhi then
            blocksAux a b fuel (m.1 + m.2.2) ahi (m.2.1 + m.2.2) bhi else []) =
              ahi - (m.1 + m.2.2) ∧
          sumSizes (if m.1 + m.2.2 < ahi ∧ m.2.1 + m.2.2 < bhi then
            blocksAux a b fuel (m.1 + m.2.2) ahi (m.2.1 + m.2.2) bhi else []) =
              bhi - (m.2.1 + m.2.2) := by
        constructor <;> omega
      have hleft : slice a alo m.1 = slice b blo m.2.1 := by
        by_cases hrec : alo < m.1 ∧ blo < m.2.1
        · have hsl := hLa
          rw [if_pos hrec] at hsl
          exact ih alo m.1 blo m.2.1 (by omega) hsl.1 hsl.2
        · have hsl := hLa
          rw [if_neg hrec, sumSizes_nil] at hsl
          have e1 : m.1 = alo := by omega
          have e2 : m.2.1 = blo := by omega
          rw [e1, e2, slice_self, slice_self]
      have hright : slice a (m.1 + m.2.2) ahi = slice b (m.2.1 + m.2.2) bhi := by
        by_cases hrec : m.1 + m.2.2 < ahi ∧ m.2.1 + m.2.2 < bhi
        · have hsr := hRa
          rw [if_pos hrec] at hsr
          exact ih (m.1 + m.2.2) ahi (m.2.1 + m.2.2) bhi (by omega) hsr.1 hsr.2
        · have hsr := hRa
          rw [if_neg hrec, sumSizes_nil] at hsr
          have e1 : ahi - (m.1 + m.2.2) = 0 := by omega
          have e2 : bhi - (m.2.1 + m.2.2) = 0 := by omega
          unfold slice
          rw [e1, e2]
          simp
      have hmid : slice a m.1 (m.1 + m.2.2) = slice b m.2.1 (m.2.1 + m.2.2) := h6
      rw [slice_append a h1 (show m.1 ≤ ahi by omega),
        slice_append a (show m.1 ≤ m.1 + m.2.2 by omega) h3,
        slice_append b h2 (show m.2.1 ≤ bhi by omega),
        slice_append b (show m.2.1 ≤ m.2.1 + m.2.2 by omega) h4,
        hleft, hmid, hright]

/-- Closed form of `ratioQ`. -/
theorem ratioQ_def (a b : List Char) :
    ratioQ a b =
      if a.length + b.length = 0 then 1
      else 2 * (sumSizes (get_matching_blocks a b) : Rat) /
        ((a.length + b.length : Nat) : Rat) := rfl

/-- On identical sequences a live cell forces its `b`-side diagonal cell to
be live. -/
theorem okCell_diag_b {a : List Char} {n i j : Nat}
    (h : okCell a a 0 n 0 n i j = true) : okCell a a 0 n 0 n j j = true := by
  obtain ⟨x, _, hbx, hpop⟩ := okCell_chars h
  obtain ⟨_, _, _, hj⟩ := okCell_bounds h
  simp only [List.get?_eq_getElem?] at hbx
  simp [okCell, hbx, hpop, hj]

/-- On identical sequences a live cell forces its `a`-side diagonal cell to
be live. -/
theorem okCell_diag_a {a : List Char} {n i j : Nat}
    (h : okCell a a 0 n 0 n i j = true) : okCell a a 0 n 0 n i i = true := by
  obtain ⟨x, hax, _, hpop⟩ := okCell_chars h
  obtain ⟨_, hi, _, _⟩ := okCell_bounds h
  simp only [List.get?_eq_getElem?] at hax
  simp [okCell, hax, hpop, hi]

/-- Unfolding equation of `runLen` with a plain conditional. -/
theorem runLen_eq (a b : List Char) (alo ahi blo bhi i j : Nat) :
    runLen a b alo ahi blo bhi i j =
      if okCell a b alo ahi blo bhi i j = true then
        (if alo < i ∧ 0 < j then runLen a b alo ahi blo bhi (i - 1) (j - 1) else 0) + 1
      else 0 := by
  rw [runLen]
  rfl

/-- On identical sequences, a run ending below the diagonal is no longer
than the diagonal run ending at its `b`-side column. -/
theorem runLen_le_diag_left (a : List Char) (n : Nat) :
    ∀ j i, j ≤ i → runLen a a 0 n 0 n i j ≤ runLen a a 0 n 0 n j j := by
  intro j
  induction j using Nat.strong_induction_on with
  | _ j ih =>
    intro i hji
    by_cases hpos : 0 < runLen a a 0 n 0 n i j
    case neg => omega
    case pos =>
      rcases Nat.eq_or_lt_of_le hji with rfl | hlt
      · exact le_refl _
      · have hok := okCell_of_runLen_pos hpos
        have hokd := okCell_diag_b hok
        rw [runLen_eq a a 0 n 0 n i j, if_pos hok]
        rw [runLen_eq a a 0 n 0 n j j, if_pos hokd]
        by_cases hj0 : 0 < j
        · rw [if_pos (⟨by omega, hj0⟩ : 0 < i ∧ 0 < j),
            if_pos (⟨hj0, hj0⟩ : 0 < j ∧ 0 < j)]
          have := ih (j - 1) (by omega) (i - 1) (by omega)
          omega
        · rw [if_neg (by omega), if_neg (by omega)]

/-- On identical sequences, a run ending above the diagonal is no longer
than the diagonal run ending at its `a`-side row. -/
theorem runLen_le_diag_right (a : List Char) (n : Nat) :
    ∀ i j, i ≤ j → runLen a a 0 n 0 n i j ≤ runLen a a 0 n 0 n i i := by
  intro i
  induction i using Nat.strong_induction_on with
  | _ i ih =>
    intro j hij
    by_cases hpos : 0 < runLen a a 0 n 0 n i j
    case neg => omega
    case pos =>
      rcases Nat.eq_or_lt_of_le hij with rfl | hlt
      · exact le_refl _
      · have hok := okCell_of_runLen_pos hpos
        have hokd := okCell_diag_a hok
        rw [runLen_eq a a 0 n 0 n i j, if_pos hok]
        rw [runLen_eq a a 0 n 0 n i i, if_pos hokd]
        by_cases hi0 : 0 < i
        · rw [if_pos (⟨hi0, by omega⟩ : 0 < i ∧ 0 < j),
            if_pos (⟨hi0, hi0⟩ : 0 < i ∧ 0 < i)]
          have := ih (i - 1) (by omega) (j - 1) (by omega)
          omega
        · rw [if_neg (by omega), if_neg (by omega)]

/-- A live diagonal cell is scanned by its own DP row. -/
theorem mem_rowFor_diag {a : List Char} {n i : Nat}
    (h : okCell a a 0 n 0 n i i = true) : i ∈ rowFor a a 0 n i := by
  obtain ⟨x, hax, _, hpop⟩ := okCell_chars h
  obtain ⟨_, _, _, hibh⟩ := okCell_bounds h
  have hilen : i < a.length := by
    rcases List.get?_eq_some.mp hax with ⟨hl, _⟩
    exact hl
  unfold rowFor
  rw [hax]
  dsimp only
  unfold jsFor b2jIdx
  rw [if_neg (by simp [hpop])]
  simp only [List.mem_filter, List.mem_range, Bool.and_eq_true, decide_eq_true_eq]
  refine ⟨⟨hilen, ?_⟩, by omega, hibh⟩
  exact hax

/-- Each DP row scans a strictly increasing column list. -/
theorem rowFor_pairwise (a b : List Char) (blo bhi i : Nat) :
    (rowFor a b blo bhi i).Pairwise (· < ·) := by
  unfold rowFor
  rcases a.get? i with _ | c
  · simp
  · dsimp only
    unfold jsFor b2jIdx
    by_cases hpop : popularB b c = true
    · rw [if_pos hpop]
      simp
    · rw [if_neg hpop]
      exact List.Pairwise.filter _ (List.Pairwise.filter _ (List.pairwise_lt_range _))

/-- On identical sequences, folding a strictly increasing column list over
one DP row keeps the best triple diagonal and in range, and raises its size
above every diagonal run up to the current row: an off-diagonal cell can
never strictly improve on the diagonal cell scanned no later than it. -/
theorem procRow_diag (a : List Char) (n i : Nat) :
    ∀ (js : List Nat) (best : Nat × Nat × Nat),
      js.Pairwise (· < ·) →
      best.1 = best.2.1 →
      best.1 + best.2.2 ≤ n →
      (∀ d, d < i → runLen a a 0 n 0 n d d ≤ best.2.2) →
      (i ∉ js → runLen a a 0 n 0 n i i ≤ best.2.2) →
      (js.foldl (procCell a a 0 n 0 n i) best).1 =
          (js.foldl (procCell a a 0 n 0 n i) best).2.1 ∧
        (js.foldl (procCell a a 0 n 0 n i) best).1 +
          (js.foldl (procCell a a 0 n 0 n i) best).2.2 ≤ n ∧
        (∀ d, d ≤ i → runLen a a 0 n 0 n d d ≤
          (js.foldl (procCell a a 0 n 0 n i) best).2.2) := by
  intro js
  induction js with
  | nil =>
    intro best _ hd hb hlt hin
    refine ⟨hd, hb, ?_⟩
    intro d hdi
    rcases Nat.lt_or_ge d i with h | h
    · exact hlt d h
    · have : d = i := by omega
      subst this
      exact hin (by simp)
  | cons j rest ih =>
    intro best hp hd hb hlt hin
    rw [List.foldl_cons]
    by_cases hup : best.2.2 < runLen a a 0 n 0 n i j
    · have hij : j = i := by
        by_contra hne
        rcases Nat.lt_or_ge j i with hji | hji
        · have h1 := runLen_le_diag_left a n j i (le_of_lt hji)
          have h2 := hlt j hji
          omega
        · have hij2 : i < j := by omega
          have hnotin : i ∉ j :: rest := by
            intro hmem
            rcases List.mem_cons.mp hmem with h' | h'
            · omega
            · have := (List.pairwise_cons.mp hp).1 i h'
              omega
          have h1 := runLen_le_diag_right a n i j (le_of_lt hij2)
          have h2 := hin hnotin
          omega
      have happ : procCell a a 0 n 0 n i best j =
          (i + 1 - runLen a a 0 n 0 n i j, j + 1 - runLen a a 0 n 0 n i j,
            runLen a a 0 n 0 n i j) := by
        show (if best.2.2 < runLen a a 0 n 0 n i j then
            (i + 1 - runLen a a 0 n 0 n i j, j + 1 - runLen a a 0 n 0 n i j,
              runLen a a 0 n 0 n i j)
          else best) = _
        rw [if_pos hup]
      rw [happ]
      have hpos : 0 < runLen a a 0 n 0 n i j := by omega
      have hok := okCell_of_runLen_pos hpos
      obtain ⟨_, hin2, _, _⟩ := okCell_bounds hok
      have hka := runLen_le_a a a 0 n 0 n i j
      apply ih
      · exact (List.pairwise_cons.mp hp).2
      · dsimp only
        rw [hij]
      · dsimp only
        omega
      · intro d hd2
        dsimp only
        have := hlt d hd2
        omega
      · intro _
        dsimp only
        rw [← hij]
    · have happ : procCell a a 0 n 0 n i best j = best := by
        show (if best.2.2 < runLen a a 0 n 0 n i j then
            (i + 1 - runLen a a 0 n 0 n i j, j + 1 - runLen a a 0 n 0 n i j,
              runLen a a 0 n 0 n i j)
          else best) = _
        rw [if_neg hup]
      rw [happ]
      apply ih best (List.pairwise_cons.mp hp).2 hd hb hlt
      intro hnotin
      by_cases hji : j = i
      · rw [← hji] at hup ⊢
        omega
      · refine hin fun hmem => ?_
        rcases List.mem_cons.mp hmem with h' | h'
        · exact hji h'.symm
        · exact hnotin h'

/-- On identical sequences, folding the DP rows keeps the best triple
diagonal and in range. -/
theorem dpRows_diag (a : List Char) (n : Nat) :
    ∀ (len s : Nat) (best : Nat × Nat × Nat),
      best.1 = best.2.1 →
      best.1 + best.2.2 ≤ n →
      (∀ d, d < s → runLen a a 0 n 0 n d d ≤ best.2.2) →
      ((List.range' s len).foldl
          (fun best i => (rowFor a a 0 n i).foldl (procCell a a 0 n 0 n i) best) best).1 =
        ((List.range' s len).foldl
          (fun best i => (rowFor a a 0 n i).foldl (procCell a a 0 n 0 n i) best) best).2.1 ∧
      ((List.range' s len).foldl
          (fun best i => (rowFor a a 0 n i).foldl (procCell a a 0 n 0 n i) best) best).1 +
        ((List.range' s len).foldl
          (fun best i => (rowFor a a 0 n i).foldl (procCell a a 0 n 0 n i) best) best).2.2
        ≤ n := by
  intro len
  induction len with
  | zero =>
    intro s best hd hb _
    exact ⟨hd, hb⟩
  | succ len ih =>
    intro s best hd hb hlt
    have hexp : List.range' s (len + 1) = s :: List.range' (s + 1) len := rfl
    rw [hexp, List.foldl_cons]
    have hrow := procRow_diag a n s (rowFor a a 0 n s) best
      (rowFor_pairwise a a 0 n s) hd hb hlt ?hni
    case hni =>
      intro hnot
      by_cases hok : okCell a a 0 n 0 n s s = true
      · exact absurd (mem_rowFor_diag hok) hnot
      · rw [runLen_zero_of_not_ok hok]
        omega
    obtain ⟨hr1, hr2, hr3⟩ := hrow
    exact ih (s + 1) _ hr1 hr2 (fun d hd2 => hr3 d (by omega))

/-- On identical sequences the DP phase ends on a diagonal triple within
range. -/
theorem dpBest_diag (a : List Char) (n : Nat) :
    (dpBest a a 0 n 0 n).1 = (dpBest a a 0 n 0 n).2.1 ∧
    (dpBest a a 0 n 0 n).1 + (dpBest a a 0 n 0 n).2.2 ≤ n := by
  unfold dpBest
  exact dpRows_diag a n (n - 0) 0 (0, 0, 0) rfl (by simp) (fun d hd => by omega)

/-- On identical sequences the backward loop slides a diagonal triple all
the way to the start. -/
theorem extendBack_self (a : List Char) :
    ∀ (d K : Nat), extendBack a a 0 0 (d, d, K) = (0, 0, K + d) := by
  intro d
  induction d with
  | zero =>
    intro K
    rw [extendBack, dif_neg (by simp)]
    simp
  | succ d ih =>
    intro K
    rw [extendBack, dif_pos ⟨by omega, by omega, rfl⟩]
    simp only [Nat.add_sub_cancel]
    rw [ih (K + 1)]
    have : K + 1 + d = K + (d + 1) := by omega
    rw [this]

/-- On identical sequences the forward loop extends a start-anchored triple
to the whole range. -/
theorem extendFwd_self (a : List Char) (n : Nat) :
    ∀ (t m : Nat), m + t = n → extendFwd a a n n (0, 0, m) = (0, 0, n) := by
  intro t
  induction t with
  | zero =>
    intro m hm
    rw [extendFwd, dif_neg (by rintro ⟨h, -, -⟩; omega)]
    have : m = n := by omega
    rw [this]
  | succ t ih =>
    intro m hm
    rw [extendFwd, dif_pos ⟨by omega, by omega, rfl⟩]
    exact ih (m + 1) (by omega)

/-- On identical sequences `find_longest_match` returns the whole range. -/
theorem flm_self (a : List Char) (n : Nat) :
    find_longest_match a a 0 n 0 n = (0, 0, n) := by
  unfold find_longest_match
  obtain ⟨hd, hb⟩ := dpBest_diag a n
  rcases hdp : dpBest a a 0 n 0 n with ⟨i0, j0, n0⟩
  rw [hdp] at hd hb
  dsimp only at hd hb
  rw [← hd]
  rw [extendBack_self a i0 n0]
  exact extendFwd_self a n (n - (n0 + i0)) (n0 + i0) (by omega)

/-- `SequenceMatcher.ratio` is `1` on identical sequences. -/
theorem ratioQ_self (a : List Char) : ratioQ a a = 1 := by
  rw [ratioQ_def]
  by_cases hn : a.length = 0
  · rw [if_pos (by omega)]
  · rw [if_neg (by omega)]
    have hsum : sumSizes (get_matching_blocks a a) = a.length := by
      unfold get_matching_blocks
      rw [blocksAux_succ, flm_self a a.length]
      rw [if_neg (by simpa using hn), if_neg (by simp), if_neg (by simp)]
      simp [sumSizes]
    rw [hsum]
    have hne : ((a.length + a.length : Nat) : Rat) ≠ 0 := by
      exact_mod_cast (by omega : a.length + a.length ≠ 0)
    rw [div_eq_one_iff_eq hne]
    push_cast
    ring

end SeqMatcher

/-- C9: for every pair of texts, `calculate_similarity` lies in the unit
interval and equals `1` exactly when the two texts are equal (in
particular on any text compared with itself). -/
theorem c9_similarity_unit_interval_and_identity (a b : List Char) :
    0 ≤ calculate_similarity a b ∧ calculate_similarity a b ≤ 1 ∧
      (calculate_similarity a b = 1 ↔ a = b) := by
  have hMa := SeqMatcher.blocksAux_le a b (a.length + b.length + 1) 0 a.length 0 b.length
    (by omega)
  rw [Nat.sub_zero, Nat.sub_zero] at hMa
  unfold calculate_similarity
  rw [SeqMatcher.ratioQ_def]
  rw [show SeqMatcher.get_matching_blocks a b =
    SeqMatcher.blocksAux a b (a.length + b.length + 1) 0 a.length 0 b.length from rfl]
  set M := SeqMatcher.sumSizes
    (SeqMatcher.blocksAux a b (a.length + b.length + 1) 0 a.length 0 b.length) with hM
  by_cases hT : a.length + b.length = 0
  · have ha : a = [] := List.length_eq_zero.mp (by omega)
    have hb : b = [] := List.length_eq_zero.mp (by omega)
    rw [if_pos hT]
    subst ha
    subst hb
    refine ⟨by norm_num, by norm_num, by simp⟩
  · rw [if_neg hT]
    have h0 : (0 : Rat) < ((a.length + b.length : Nat) : Rat) := by
      exact_mod_cast Nat.pos_of_ne_zero hT
    refine ⟨?_, ?_, ?_, ?_⟩
    · apply div_nonneg
      · positivity
      · exact le_of_lt h0
    · rw [div_le_one h0]
      have h2M : 2 * M ≤ a.length + b.length := by omega
      exact_mod_cast h2M
    · intro h1
      rw [div_eq_one_iff_eq (ne_of_gt h0)] at h1
      have h2 : 2 * M = a.length + b.length := by exact_mod_cast h1
      have hTile := SeqMatcher.blocksAux_tiling a b (a.length + b.length + 1)
        0 a.length 0 b.length (by omega)
        (by rw [← hM]; omega) (by rw [← hM]; omega)
      rwa [SeqMatcher.slice_full, SeqMatcher.slice_full] at hTile
    · intro h
      subst h
      have hself := SeqMatcher.ratioQ_self a
      rw [SeqMatcher.ratioQ_def, if_neg hT] at hself
      rw [hM]
      rw [show SeqMatcher.blocksAux a a (a.length + a.length + 1) 0 a.length 0 a.length =
        SeqMatcher.get_matching_blocks a a from rfl]
      exact hself

end WikiCite
